import Mathlib

/-!
Verification development for the agogos pipeline-composition framework.

The definitions below are shallow embeddings of the Python source:
* `Node`, `setHash`, `sortSteps`, `setupWeights` embed `src/agogos/_core.py`
  (`_Base`, `_Block`, `_ParallelSystem`, `_SequentialSystem`);
* `Pipeline`, `pipelineSetHash` embed `Pipeline._set_hash` from
  `src/agogos/training.py` / `src/agogos/pipeline.py`;
* `TransStep`, `tsTransform`, `ptsTransform` embed `src/agogos/transforming.py`;
* `TrainStep`, `tsTrain`, `tsPredict`, `PTrainSys`, `ptsTrain`, `ptsPredict`
  embed `src/agogos/training.py`.

Mutable attribute updates (`self._hash = ...`, updates of child hashes) are
modelled by state passing: `setHash` returns the updated node.  Python
exceptions (`TypeError`, `NotImplementedError`, `ZeroDivisionError`) are
modelled with `Except PyErr`.  The digest function (`joblib.hash`, an external
library) is kept as an explicit function parameter `digest`; `digestM` below
is a concrete injective instantiation used for concrete evaluations.
-/

namespace Agogos

/-- Python exceptions raised by the agogos core. -/
inductive PyErr where
  | typeError (msg : String)
  | notImplementedError (msg : String)
  | zeroDivisionError
deriving DecidableEq

/-- Lexicographic comparison of character lists by code point, the order
Python uses to compare `str` values in `sorted`. -/
def lexLe : List Char → List Char → Bool
  | [], _ => true
  | _ :: _, [] => false
  | a :: as, b :: bs => if a < b then true else if b < a then false else lexLe as bs

/-- String comparison by code points, as Python compares class names. -/
def strLe (s t : String) : Bool := lexLe s.data t.data

/-- A node of the composition tree from `src/agogos/_core.py`: a leaf `_Block`
(with its class name and the canonical string `str(self)` that feeds the
hash), a `_ParallelSystem` or a `_SequentialSystem`.  Every node stores its
current `_hash` attribute. -/
inductive Node where
  | block (cls : String) (rep : String) (h : String)
  | parallel (cls : String) (h : String) (steps : List Node)
  | sequential (cls : String) (h : String) (steps : List Node)

/-- The stored `_hash` attribute, as returned by `_Base.get_hash`. -/
def Node.getHash : Node → String
  | .block _ _ h => h
  | .parallel _ h _ => h
  | .sequential _ h _ => h

/-- The Python class name of the node (`x.__class__.__name__`), the sort key
used by `_ParallelSystem.__post_init__`. -/
def Node.cls : Node → String
  | .block c _ _ => c
  | .parallel c _ _ => c
  | .sequential c _ _ => c

/-- Concatenation of the stored hashes of a list of steps, as accumulated by
the loop in `_ParallelSystem._set_hash`. -/
def joinHashes : List Node → String
  | [] => ""
  | s :: rest => s.getHash ++ joinHashes rest

mutual

/-- State-passing embedding of `_set_hash`.  The `block` case is
`_Base._set_hash` (`self._hash = hash(prev_hash + str(self))`); the
`parallel` cases are `_ParallelSystem._set_hash` (no steps: keep `prev_hash`;
one step: act as that step; two or more: set each step hash against
`prev_hash` and digest the concatenation); the `sequential` case is
`_SequentialSystem._set_hash` (thread the hash through the steps). -/
def setHash (digest : String → String) : Node → String → Node
  | .block c r _, prev => .block c r (digest (prev ++ r))
  | .parallel c _ [], prev => .parallel c prev []
  | .parallel c _ [s], prev =>
    let s' := setHash digest s prev
    .parallel c s'.getHash [s']
  | .parallel c _ (s :: t :: rest), prev =>
    let steps' := setHashAll digest (s :: t :: rest) prev
    .parallel c (digest (prev ++ joinHashes steps')) steps'
  | .sequential c _ steps, prev =>
    let p := threadHash digest steps prev
    .sequential c p.2 p.1

/-- The loop of `_ParallelSystem._set_hash` over two or more steps: every
step gets its hash set against the same previous hash. -/
def setHashAll (digest : String → String) : List Node → String → List Node
  | [], _ => []
  | s :: rest, prev => setHash digest s prev :: setHashAll digest rest prev

/-- The loop of `_SequentialSystem._set_hash`: each step gets its hash set
against the running hash, which then becomes the hash of that step; returns
the updated steps and the final running hash. -/
def threadHash (digest : String → String) : List Node → String → (List Node × String)
  | [], prev => ([], prev)
  | s :: rest, prev =>
    let s' := setHash digest s prev
    let p := threadHash digest rest s'.getHash
    (s' :: p.1, p.2)

end

mutual

/-- Pure recursion computing the hash value of a node against a previous
hash, following the recursive description of `compute_hash` in the
specification; compared against the stateful `setHash` by theorem. -/
def hashSpec (digest : String → String) : Node → String → String
  | .block _ r _, prev => digest (prev ++ r)
  | .parallel _ _ [], prev => prev
  | .parallel _ _ [s], prev => hashSpec digest s prev
  | .parallel _ _ (s :: t :: rest), prev =>
    digest (prev ++ hashSpecList digest (s :: t :: rest) prev)
  | .sequential _ _ steps, prev => hashSpecThread digest steps prev

/-- Concatenation of the hashes of the steps, each computed against the same
previous hash. -/
def hashSpecList (digest : String → String) : List Node → String → String
  | [], _ => ""
  | s :: rest, prev => hashSpec digest s prev ++ hashSpecList digest rest prev

/-- Hash threading through a list of steps: the hash of each step, computed
against the running hash, becomes the new running hash. -/
def hashSpecThread (digest : String → String) : List Node → String → String
  | [], prev => prev
  | s :: rest, prev => hashSpecThread digest rest (hashSpec digest s prev)

end

/-- Stable insertion into a list sorted by class name: the new element goes
after every element whose class name is less than or equal to its own. -/
def insertStep (x : Node) : List Node → List Node
  | [] => [x]
  | y :: ys => if strLe y.cls x.cls then y :: insertStep x ys else x :: y :: ys

/-- Embedding of `sorted(self.steps, key=lambda x: x.__class__.__name__)`
from `_ParallelSystem.__post_init__`: a stable sort by class name (stable
sorting by a key is a unique function, so stable insertion sort is a faithful
model of the Python sort). -/
def sortSteps (l : List Node) : List Node := l.foldl (fun acc x => insertStep x acc) []

/-- Construction of a `_Block` (or `_Base`): `__post_init__` invokes
`self._set_hash("")`. -/
def mkBlock (digest : String → String) (c r : String) : Node :=
  setHash digest (.block c r "") ""

/-- Construction of a `_ParallelSystem`: `__post_init__` first sorts the
steps by class name, then invokes `self._set_hash("")`. -/
def mkParallel (digest : String → String) (c : String) (steps : List Node) : Node :=
  setHash digest (.parallel c "" (sortSteps steps)) ""

/-- Construction of a `_SequentialSystem`: `__post_init__` invokes
`self._set_hash("")`. -/
def mkSequential (digest : String → String) (c : String) (steps : List Node) : Node :=
  setHash digest (.sequential c "" steps) ""

/-- Modelled from the spec: the digest (`joblib.hash`, an MD5-based digest
from an external library, absent from the repository) is modelled as an
injective tagging function, a collision-free idealization of a
collision-resistant digest. -/
def digestM (s : String) : String := "#" ++ s

/-- Embedding of the weight setup in `_ParallelSystem.__post_init__`:
if the weights list has the same length as the steps list, each weight is
divided by the sum of the weights (Python raises `ZeroDivisionError` when a
division by a zero sum is executed, which happens exactly when the list is
nonempty); otherwise the weights become `[1 / num_steps] * num_steps`,
raising `ZeroDivisionError` when there are no steps.  Weights are modelled
as rationals. -/
def setupWeights (numSteps : Nat) (weights : List ℚ) : Except PyErr (List ℚ) :=
  if weights.length = numSteps then
    if weights = [] then .ok []
    else if weights.sum = 0 then .error .zeroDivisionError
    else .ok (weights.map (fun w => w / weights.sum))
  else
    if numSteps = 0 then .error .zeroDivisionError
    else .ok (List.replicate numSteps ((1 : ℚ) / numSteps))

/-- The five optional slots of a `Pipeline` together with its stored `_hash`
attribute (`src/agogos/training.py`, `src/agogos/pipeline.py`). -/
structure Pipeline where
  x_sys : Option Node
  y_sys : Option Node
  train_sys : Option Node
  pred_sys : Option Node
  label_sys : Option Node
  storedHash : String

/-- The stored hash of an optional slot; an absent slot contributes the empty
string (the code only reads `get_hash()` of present slots). -/
def optHash : Option Node → String
  | none => ""
  | some n => n.getHash

/-- Embedding of `Pipeline._set_hash`: the running hash starts at the
previous hash; the concatenated stored hashes of `x_sys` and `y_sys`, when
nonempty, are folded in with the digest; `train_sys`, when present, gets its
hash recomputed against the running hash and the result, when nonempty, is
folded in with the digest; the concatenated stored hashes of `pred_sys` and
`label_sys`, when nonempty, replace an empty running hash outright and are
otherwise folded in with the digest. -/
def pipelineSetHash (digest : String → String) (p : Pipeline) (prev : String) : Pipeline :=
  let h0 := prev
  let xyHash := optHash p.x_sys ++ optHash p.y_sys
  let h1 := if xyHash ≠ "" then digest (h0 ++ xyHash) else h0
  let tp : Option Node × String :=
    match p.train_sys with
    | none => (none, h1)
    | some t =>
      let t' := setHash digest t h1
      (some t', if t'.getHash ≠ "" then digest (h1 ++ t'.getHash) else h1)
  let predlabelHash := optHash p.pred_sys ++ optHash p.label_sys
  let h3 :=
    if predlabelHash ≠ "" then
      if tp.2 = "" then predlabelHash else digest (tp.2 ++ predlabelHash)
    else tp.2
  { p with train_sys := tp.1, storedHash := h3 }

/-- Construction of a `Pipeline`: `__post_init__` invokes
`self._set_hash("")` on the assembled slots. -/
def mkPipeline (digest : String → String) (x y t pr lb : Option Node) : Pipeline :=
  pipelineSetHash digest ⟨x, y, t, pr, lb, ""⟩ ""

/-- A step of a transforming system (`src/agogos/transforming.py`): a
`Transformer` subclass (whose `transform` override is `some f`, or `none`
when the abstract base method is inherited), a nested `TransformingSystem`, a
nested `ParallelTransformingSystem` (with its optional `concat` override), or
an arbitrary object that is not an instance of a transformer (`other`, with
the string Python would print for it).  Keyword-argument configuration maps
are not modelled: every call is at the default empty configuration, which the
blocks absorb into their data functions. -/
inductive TransStep (α : Type) where
  | transformer (cls : String) (f : Option (α → α))
  | seqSystem (cls : String) (steps : List (TransStep α))
  | parSystem (cls : String) (cc : Option (α → α → α)) (steps : List (TransStep α))
  | other (rep : String)

/-- The string Python interpolates for the step in dispatch error messages
(`f-string` of the step object); modelled from the class name for real steps
and the given representation for foreign objects. -/
def TransStep.reprStr : TransStep α → String
  | .transformer c _ => "<" ++ c ++ ">"
  | .seqSystem c _ => "<" ++ c ++ ">"
  | .parSystem c _ _ => "<" ++ c ++ ">"
  | .other r => r

/-- Embedding of
`isinstance(step, (Transformer, TransformingSystem, ParallelTransformingSystem))`. -/
def TransStep.isTransformerInst : TransStep α → Bool
  | .other _ => false
  | _ => true

/-- Result of `self.concat(a, b)` on a parallel transforming system whose
`concat` override is `cc`: the base `_ParallelSystem.concat` raises
`NotImplementedError` naming the class. -/
def applyConcat (cls : String) (cc : Option (α → α → α)) (a b : α) : Except PyErr α :=
  match cc with
  | some f => .ok (f a b)
  | none => .error (.notImplementedError (cls ++ " does not implement concat method."))

mutual

/-- Embedding of `TransformingSystem.transform`: iterate the steps in order,
threading the data; a step that is not an instance of a transformer raises
`TypeError` naming the step. -/
def tsTransform : List (TransStep α) → α → Except PyErr α
  | [], d => .ok d
  | s :: rest, d =>
    if s.isTransformerInst then
      match callTransform s d with
      | .ok d' => tsTransform rest d'
      | .error e => .error e
    else .error (.typeError (s.reprStr ++ " is not an instance of a transformer"))

/-- Dispatch of `step.transform(data)`: a transformer without an override
raises `NotImplementedError` naming the class; nested systems recurse. -/
def callTransform : TransStep α → α → Except PyErr α
  | .transformer cls f?, d =>
    match f? with
    | some f => .ok (f d)
    | none => .error (.notImplementedError (cls ++ " does not implement transform method."))
  | .seqSystem _ steps, d => tsTransform steps d
  | .parSystem cls cc steps, d => ptsTransform cls cc steps d
  | .other r, _ => .error (.typeError (r ++ " is not an instance of a transformer"))

/-- Embedding of `ParallelTransformingSystem.transform`: the step at index 0
reassigns the data with its own output; every later step receives the
current data value and its output is combined with `self.concat`; a step
that fails the instance check raises `TypeError`. -/
def ptsTransform (cls : String) (cc : Option (α → α → α)) :
    List (TransStep α) → α → Except PyErr α
  | [], d => .ok d
  | s :: rest, d =>
    if s.isTransformerInst then
      match callTransform s d with
      | .ok d' => ptsTransformRest cls cc rest d'
      | .error e => .error e
    else .error (.typeError (s.reprStr ++ " is not a subclass of Transformer"))

/-- The loop of `ParallelTransformingSystem.transform` after index 0:
`data = self.concat(data, step.transform(data))`. -/
def ptsTransformRest (cls : String) (cc : Option (α → α → α)) :
    List (TransStep α) → α → Except PyErr α
  | [], d => .ok d
  | s :: rest, d =>
    if s.isTransformerInst then
      match callTransform s d with
      | .ok t =>
        match applyConcat cls cc d t with
        | .ok d' => ptsTransformRest cls cc rest d'
        | .error e => .error e
      | .error e => .error e
    else .error (.typeError (s.reprStr ++ " is not a subclass of Transformer"))

end

/-- A step of a training system (`src/agogos/training.py`): a `Trainer`
subclass (with optional `train` and `predict` overrides; both absent models
the undecorated base `Trainer`), a nested `TrainingSystem`, or an arbitrary
object without the capability. -/
inductive TrainStep (α : Type) where
  | trainer (cls : String) (tr : Option (α → α → α × α)) (pr : Option (α → α))
  | trainSystem (cls : String) (steps : List (TrainStep α))
  | other (rep : String)

/-- The string Python interpolates for the step in dispatch error messages. -/
def TrainStep.reprStr : TrainStep α → String
  | .trainer c _ _ => "<" ++ c ++ ">"
  | .trainSystem c _ => "<" ++ c ++ ">"
  | .other r => r

/-- Embedding of the `isinstance` capability check of the training loops
(`Trainer`, `TrainingSystem`, and the nested composite classes, none of
which a foreign object satisfies). -/
def TrainStep.isTrainerInst : TrainStep α → Bool
  | .other _ => false
  | _ => true

mutual

/-- Embedding of `TrainingSystem.train`: thread `(x, y)` through the steps
in order; a step without the capability raises `TypeError` naming it. -/
def tsTrain : List (TrainStep α) → α → α → Except PyErr (α × α)
  | [], x, y => .ok (x, y)
  | s :: rest, x, y =>
    if s.isTrainerInst then
      match callTrain s x y with
      | .ok (x', y') => tsTrain rest x' y'
      | .error e => .error e
    else .error (.typeError (s.reprStr ++ " is not a subclass of Trainer"))

/-- Dispatch of `step.train(x, y)`: a trainer without an override raises
`NotImplementedError` naming the class; nested systems recurse. -/
def callTrain : TrainStep α → α → α → Except PyErr (α × α)
  | .trainer cls tr? _, x, y =>
    match tr? with
    | some f => .ok (f x y)
    | none => .error (.notImplementedError (cls ++ " does not implement train method."))
  | .trainSystem _ steps, x, y => tsTrain steps x y
  | .other r, _, _ => .error (.typeError (r ++ " is not a subclass of Trainer"))

end

mutual

/-- Embedding of `TrainingSystem.predict`: thread `x` through the steps in
order (labels are not consumed at prediction time). -/
def tsPredict : List (TrainStep α) → α → Except PyErr α
  | [], x => .ok x
  | s :: rest, x =>
    if s.isTrainerInst then
      match callPredict s x with
      | .ok x' => tsPredict rest x'
      | .error e => .error e
    else .error (.typeError (s.reprStr ++ " is not a subclass of Trainer"))

/-- Dispatch of `step.predict(x)`. -/
def callPredict : TrainStep α → α → Except PyErr α
  | .trainer cls _ pr?, x =>
    match pr? with
    | some f => .ok (f x)
    | none => .error (.notImplementedError (cls ++ " does not implement predict method."))
  | .trainSystem _ steps, x => tsPredict steps x
  | .other r, _ => .error (.typeError (r ++ " is not a subclass of Trainer"))

end

/-- A `ParallelTrainingSystem` subclass: its class name, its optional
`concat` and `concat_labels` overrides, and its steps. -/
structure PTrainSys (α : Type) where
  cls : String
  cc : Option (α → α → α)
  ccl : Option (α → α → α)
  steps : List (TrainStep α)

/-- Result of `self.concat(a, b)`: the abstract base method raises
`NotImplementedError` naming the class. -/
def ptConcat (S : PTrainSys α) (a b : α) : Except PyErr α :=
  match S.cc with
  | some f => .ok (f a b)
  | none => .error (.notImplementedError (S.cls ++ " does not implement concat method."))

/-- Result of `self.concat_labels(a, b)`: defaults to delegating to
`self.concat` when not overridden. -/
def ptConcatLabels (S : PTrainSys α) (a b : α) : Except PyErr α :=
  match S.ccl with
  | some f => .ok (f a b)
  | none => ptConcat S a b

/-- The loop of `ParallelTrainingSystem.train` after index 0:
`new_x, new_y = step.train(x, y)` on the current accumulators, then
`x, y = self.concat(x, new_x), self.concat_labels(y, new_y)`. -/
def ptsTrainRest (S : PTrainSys α) : List (TrainStep α) → α → α → Except PyErr (α × α)
  | [], x, y => .ok (x, y)
  | s :: rest, x, y =>
    if s.isTrainerInst then
      match callTrain s x y with
      | .ok (nx, ny) =>
        match ptConcat S x nx with
        | .ok x' =>
          match ptConcatLabels S y ny with
          | .ok y' => ptsTrainRest S rest x' y'
          | .error e => .error e
        | .error e => .error e
      | .error e => .error e
    else
      .error (.typeError
        (s.reprStr ++ " is not a subclass of Trainer, TrainingSystem or ParallelTrainingSystem"))

/-- Embedding of `ParallelTrainingSystem.train`: the step at index 0
reassigns `(x, y)` with its own output; later steps run on the current
accumulators and are folded in with `concat` and `concat_labels`. -/
def ptsTrain (S : PTrainSys α) (x y : α) : Except PyErr (α × α) :=
  match S.steps with
  | [] => .ok (x, y)
  | s :: rest =>
    if s.isTrainerInst then
      match callTrain s x y with
      | .ok (x', y') => ptsTrainRest S rest x' y'
      | .error e => .error e
    else
      .error (.typeError
        (s.reprStr ++ " is not a subclass of Trainer, TrainingSystem or ParallelTrainingSystem"))

/-- The loop of `ParallelTrainingSystem.predict` after index 0:
`x_new = step.predict(x)` on the current accumulator, then
`x = self.concat(x, x_new)`. -/
def ptsPredictRest (S : PTrainSys α) : List (TrainStep α) → α → Except PyErr α
  | [], x => .ok x
  | s :: rest, x =>
    if s.isTrainerInst then
      match callPredict s x with
      | .ok nx =>
        match ptConcat S x nx with
        | .ok x' => ptsPredictRest S rest x'
        | .error e => .error e
      | .error e => .error e
    else .error (.typeError (s.reprStr ++ " is not a subclass of Trainer or TrainingSystem"))

/-- Embedding of `ParallelTrainingSystem.predict`. -/
def ptsPredict (S : PTrainSys α) (x : α) : Except PyErr α :=
  match S.steps with
  | [] => .ok x
  | s :: rest =>
    if s.isTrainerInst then
      match callPredict s x with
      | .ok x' => ptsPredictRest S rest x'
      | .error e => .error e
    else .error (.typeError (s.reprStr ++ " is not a subclass of Trainer or TrainingSystem"))

/-- Modelled from the spec: the parallel fold as the specification words it,
for comparison with the code embedding — the first step seeds the
accumulator with its output on the input, and every later step is applied to
the original input `x0`, its output folded into the accumulator with the
concatenation function. -/
def specParallelFold (cc : α → α → α) (f0 : α → α) (fs : List (α → α)) (x0 : α) : α :=
  fs.foldl (fun acc f => cc acc (f x0)) (f0 x0)

/-- The fold the code actually performs: every later step is applied to the
current accumulator. -/
def accParallelFold (cc : α → α → α) (f0 : α → α) (fs : List (α → α)) (x0 : α) : α :=
  fs.foldl (fun acc f => cc acc (f acc)) (f0 x0)

/-- The order on nodes used by the canonical sort: comparison of class names. -/
def nodeLe (a b : Node) : Prop := strLe a.cls b.cls = true

/-- Pure recursion computing the stored hash that `Pipeline._set_hash` leaves
behind, for comparison with the state-passing `pipelineSetHash`. -/
def pipelineHashSpec (digest : String → String) (x y t pr lb : Option Node)
    (prev : String) : String :=
  let xyHash := optHash x ++ optHash y
  let h1 := if xyHash ≠ "" then digest (prev ++ xyHash) else prev
  let h2 :=
    match t with
    | none => h1
    | some tn =>
      let th := hashSpec digest tn h1
      if th ≠ "" then digest (h1 ++ th) else h1
  let predlabelHash := optHash pr ++ optHash lb
  if predlabelHash ≠ "" then
    if h2 = "" then predlabelHash else digest (h2 ++ predlabelHash)
  else h2

/-- A list of transformer leaves, one per class-name and transform-function
pair. -/
def mkTransformers (l : List (String × (α → α))) : List (TransStep α) :=
  l.map (fun p => TransStep.transformer p.1 (some p.2))

/-- A list of trainer leaves with only `train` overridden. -/
def mkTrainers (l : List (String × (α → α → α × α))) : List (TrainStep α) :=
  l.map (fun p => TrainStep.trainer p.1 (some p.2) none)

/-- A list of trainer leaves with only `predict` overridden. -/
def mkPredictors (l : List (String × (α → α))) : List (TrainStep α) :=
  l.map (fun p => TrainStep.trainer p.1 none (some p.2))

/-- Setting the hash does not change the class name of a node. -/
theorem cls_setHash (digest : String → String) (n : Node) (prev : String) :
    (setHash digest n prev).cls = n.cls := by
  match n with
  | .block c r h => simp [setHash, Node.cls]
  | .parallel c h [] => simp [setHash, Node.cls]
  | .parallel c h [s] => simp [setHash, Node.cls]
  | .parallel c h (s :: t :: rest) => simp [setHash, Node.cls]
  | .sequential c h steps => simp [setHash, Node.cls]

mutual

/-- The stored hash after `_set_hash` equals the pure recursive hash. -/
theorem getHash_setHash (digest : String → String) : (n : Node) → (prev : String) →
    (setHash digest n prev).getHash = hashSpec digest n prev
  | .block c r h, prev => by simp [setHash, hashSpec, Node.getHash]
  | .parallel c h [], prev => by simp [setHash, hashSpec, Node.getHash]
  | .parallel c h [s], prev => by
    simp [setHash, hashSpec, Node.getHash]
    exact getHash_setHash digest s prev
  | .parallel c h (s :: t :: rest), prev => by
    simp [setHash, hashSpec, Node.getHash]
    rw [joinHashes_setHashAll digest (s :: t :: rest) prev]
  | .sequential c h steps, prev => by
    simp [setHash, Node.getHash, hashSpec]
    exact threadHash_snd digest steps prev

/-- The concatenated stored hashes after the parallel loop equal the
concatenated pure hashes. -/
theorem joinHashes_setHashAll (digest : String → String) : (l : List Node) → (prev : String) →
    joinHashes (setHashAll digest l prev) = hashSpecList digest l prev
  | [], prev => by simp [setHashAll, joinHashes, hashSpecList]
  | s :: rest, prev => by
    simp [setHashAll, joinHashes, hashSpecList]
    rw [getHash_setHash digest s prev, joinHashes_setHashAll digest rest prev]

/-- The final running hash of the sequential loop equals the pure threaded
hash. -/
theorem threadHash_snd (digest : String → String) : (l : List Node) → (prev : String) →
    (threadHash digest l prev).2 = hashSpecThread digest l prev
  | [], prev => by simp [threadHash, hashSpecThread]
  | s :: rest, prev => by
    simp [threadHash, hashSpecThread]
    rw [getHash_setHash digest s prev]
    exact threadHash_snd digest rest (hashSpec digest s prev)

end

mutual

/-- The pure hash of a node is independent of the stored hashes left behind
by an earlier `_set_hash` pass. -/
theorem hashSpec_setHash (digest : String → String) : (n : Node) → (p prev : String) →
    hashSpec digest (setHash digest n p) prev = hashSpec digest n prev
  | .block c r h, p, prev => by simp [setHash, hashSpec]
  | .parallel c h [], p, prev => by simp [setHash, hashSpec]
  | .parallel c h [s], p, prev => by
    simp [setHash, hashSpec]
    exact hashSpec_setHash digest s p prev
  | .parallel c h (s :: t :: rest), p, prev => by
    simp [setHash, setHashAll, hashSpec, hashSpecList]
    rw [hashSpec_setHash digest s p prev, hashSpec_setHash digest t p prev,
      hashSpecList_setHashAll digest rest p prev]
  | .sequential c h steps, p, prev => by
    simp [setHash, hashSpec]
    exact hashSpecThread_threadHash digest steps p prev

/-- List version of `hashSpec_setHash` for the parallel loop. -/
theorem hashSpecList_setHashAll (digest : String → String) :
    (l : List Node) → (p prev : String) →
    hashSpecList digest (setHashAll digest l p) prev = hashSpecList digest l prev
  | [], p, prev => by simp [setHashAll, hashSpecList]
  | s :: rest, p, prev => by
    simp [setHashAll, hashSpecList]
    rw [hashSpec_setHash digest s p prev, hashSpecList_setHashAll digest rest p prev]

/-- Thread version of `hashSpec_setHash` for the sequential loop. -/
theorem hashSpecThread_threadHash (digest : String → String) :
    (l : List Node) → (p prev : String) →
    hashSpecThread digest (threadHash digest l p).1 prev = hashSpecThread digest l prev
  | [], p, prev => by simp [threadHash, hashSpecThread]
  | s :: rest, p, prev => by
    simp [threadHash, hashSpecThread]
    rw [hashSpec_setHash digest s p prev]
    exact hashSpecThread_threadHash digest rest (setHash digest s p).getHash
      (hashSpec digest s prev)

end

theorem lexLe_refl : ∀ a : List Char, lexLe a a = true
  | [] => rfl
  | x :: xs => by simp [lexLe, lt_irrefl, lexLe_refl xs]

theorem lexLe_total : ∀ a b : List Char, lexLe a b = true ∨ lexLe b a = true
  | [], _ => Or.inl rfl
  | _ :: _, [] => Or.inr rfl
  | x :: xs, y :: ys => by
    by_cases hxy : x < y
    · exact Or.inl (by simp [lexLe, hxy])
    · by_cases hyx : y < x
      · exact Or.inr (by simp [lexLe, hyx])
      · rcases lexLe_total xs ys with h | h
        · exact Or.inl (by simp [lexLe, hxy, hyx, h])
        · exact Or.inr (by simp [lexLe, hxy, hyx, h])

theorem lexLe_trans : ∀ a b c : List Char,
    lexLe a b = true → lexLe b c = true → lexLe a c = true
  | [], _, _, _, _ => rfl
  | x :: xs, [], _, h1, _ => by simp [lexLe] at h1
  | x :: xs, y :: ys, [], _, h2 => by simp [lexLe] at h2
  | x :: xs, y :: ys, z :: zs, h1, h2 => by
    by_cases hxy : x < y
    · by_cases hyz : y < z
      · simp [lexLe, lt_trans hxy hyz]
      · by_cases hzy : z < y
        · simp [lexLe, hyz, hzy] at h2
        · have hyz' : y = z := le_antisymm (le_of_not_lt hzy) (le_of_not_lt hyz)
          simp [lexLe, hyz' ▸ hxy]
    · by_cases hyx : y < x
      · simp [lexLe, hxy, hyx] at h1
      · have hxy' : x = y := le_antisymm (le_of_not_lt hyx) (le_of_not_lt hxy)
        subst hxy'
        by_cases hyz : x < z
        · simp [lexLe, hyz]
        · by_cases hzy : z < x
          · simp [lexLe, hyz, hzy] at h2
          · simp [lexLe, hxy, hyx] at h1
            simp [lexLe, hyz, hzy] at h2
            simp [lexLe, hyz, hzy, lexLe_trans xs ys zs h1 h2]

theorem lexLe_antisymm : ∀ a b : List Char,
    lexLe a b = true → lexLe b a = true → a = b
  | [], [], _, _ => rfl
  | [], _ :: _, _, h2 => by simp [lexLe] at h2
  | _ :: _, [], h1, _ => by simp [lexLe] at h1
  | x :: xs, y :: ys, h1, h2 => by
    by_cases hxy : x < y
    · simp [lexLe, hxy, lt_asymm hxy] at h2
    · by_cases hyx : y < x
      · simp [lexLe, hxy, hyx] at h1
      · have hxy' : x = y := le_antisymm (le_of_not_lt hyx) (le_of_not_lt hxy)
        simp only [lexLe, if_neg hxy, if_neg hyx] at h1
        simp only [lexLe, if_neg hyx, if_neg hxy] at h2
        rw [hxy', lexLe_antisymm xs ys h1 h2]

theorem strLe_refl (s : String) : strLe s s = true := lexLe_refl s.data

theorem strLe_total (s t : String) : strLe s t = true ∨ strLe t s = true :=
  lexLe_total s.data t.data

theorem strLe_trans {s t u : String} (h1 : strLe s t = true) (h2 : strLe t u = true) :
    strLe s u = true := lexLe_trans s.data t.data u.data h1 h2

theorem strLe_antisymm {s t : String} (h1 : strLe s t = true) (h2 : strLe t s = true) :
    s = t := by
  cases s; cases t
  exact congrArg String.mk (lexLe_antisymm _ _ h1 h2)

theorem nodeLe_of_not (a b : Node) (h : ¬ nodeLe a b) : nodeLe b a := by
  rcases strLe_total a.cls b.cls with h' | h'
  · exact absurd h' h
  · exact h'

theorem insertStep_perm (x : Node) : ∀ l : List Node, List.Perm (insertStep x l) (x :: l)
  | [] => List.Perm.refl _
  | y :: ys => by
    by_cases h : strLe y.cls x.cls
    · have step1 : insertStep x (y :: ys) = y :: insertStep x ys := by
        simp [insertStep, h]
      rw [step1]
      exact (List.Perm.cons y (insertStep_perm x ys)).trans (List.Perm.swap x y ys)
    · have step1 : insertStep x (y :: ys) = x :: y :: ys := by
        simp [insertStep, h]
      rw [step1]

theorem foldl_insertStep_perm :
    ∀ (l acc : List Node), List.Perm (l.foldl (fun a x => insertStep x a) acc) (acc ++ l)
  | [], acc => by simp
  | x :: rest, acc => by
    have h1 := foldl_insertStep_perm rest (insertStep x acc)
    have h2 : List.Perm (insertStep x acc ++ rest) (acc ++ x :: rest) := by
      have ha : List.Perm (insertStep x acc ++ rest) ((x :: acc) ++ rest) :=
        (insertStep_perm x acc).append_right rest
      have hb : List.Perm (x :: (acc ++ rest)) (acc ++ x :: rest) := List.perm_middle.symm
      exact ha.trans hb
    simpa [List.foldl] using h1.trans h2

theorem sortSteps_perm (l : List Node) : List.Perm (sortSteps l) l := by
  simpa using foldl_insertStep_perm l []

theorem insertStep_sorted (x : Node) :
    ∀ l : List Node, List.Pairwise nodeLe l → List.Pairwise nodeLe (insertStep x l)
  | [], _ => by simp [insertStep, List.Pairwise]
  | y :: ys, hp => by
    rcases List.pairwise_cons.mp hp with ⟨hy, hys⟩
    by_cases h : strLe y.cls x.cls
    · have hrec := insertStep_sorted x ys hys
      have hmem : ∀ z ∈ insertStep x ys, nodeLe y z := by
        intro z hz
        have hz' : z ∈ x :: ys := (insertStep_perm x ys).mem_iff.mp hz
        rcases List.mem_cons.mp hz' with hzx | hzys
        · exact hzx ▸ h
        · exact hy z hzys
      simpa [insertStep, h] using List.pairwise_cons.mpr ⟨hmem, hrec⟩
    · have hxy : nodeLe x y := nodeLe_of_not y x h
      have hmem : ∀ z ∈ y :: ys, nodeLe x z := by
        intro z hz
        rcases List.mem_cons.mp hz with hzy | hzys
        · exact hzy ▸ hxy
        · exact strLe_trans hxy (hy z hzys)
      simpa [insertStep, h] using List.pairwise_cons.mpr ⟨hmem, hp⟩

theorem foldl_insertStep_sorted :
    ∀ (l acc : List Node), List.Pairwise nodeLe acc →
      List.Pairwise nodeLe (l.foldl (fun a x => insertStep x a) acc)
  | [], acc, h => by simpa using h
  | x :: rest, acc, h => by
    simpa [List.foldl] using foldl_insertStep_sorted rest (insertStep x acc)
      (insertStep_sorted x acc h)

theorem sortSteps_sorted (l : List Node) : List.Pairwise nodeLe (sortSteps l) :=
  foldl_insertStep_sorted l [] List.Pairwise.nil

theorem filter_insertStep (x : Node) (k : String) :
    ∀ l : List Node, List.Pairwise nodeLe l →
      (insertStep x l).filter (fun s => s.cls = k)
        = l.filter (fun s => s.cls = k) ++ if x.cls = k then [x] else []
  | [], _ => by by_cases h : x.cls = k <;> simp [insertStep, h]
  | y :: ys, hp => by
    rcases List.pairwise_cons.mp hp with ⟨hy, hys⟩
    by_cases h : strLe y.cls x.cls
    · have step1 : insertStep x (y :: ys) = y :: insertStep x ys := by
        simp [insertStep, h]
      rw [step1]
      by_cases hk : y.cls = k
      · simp [List.filter_cons, hk, filter_insertStep x k ys hys]
      · simp [List.filter_cons, hk, filter_insertStep x k ys hys]
    · have step1 : insertStep x (y :: ys) = x :: y :: ys := by
        simp [insertStep, h]
      rw [step1]
      by_cases hxk : x.cls = k
      · have hnone : ∀ z ∈ y :: ys, ¬ z.cls = k := by
          intro z hz hzk
          apply h
          have hcx : z.cls = x.cls := hzk.trans hxk.symm
          rcases List.mem_cons.mp hz with hzy | hzys
          · subst hzy
            rw [← hcx]
            exact strLe_refl z.cls
          · rw [← hcx]
            exact hy z hzys
        have hfilter : (y :: ys).filter (fun s => s.cls = k) = [] := by
          apply List.filter_eq_nil_iff.mpr
          intro z hz
          simpa using hnone z hz
        rw [hfilter]
        simp [List.filter_cons, hxk,
          show ¬ y.cls = k from hnone y (List.mem_cons_self y ys),
          List.filter_eq_nil_iff.mp hfilter]
        intro z hz
        have := List.filter_eq_nil_iff.mp hfilter z (List.mem_cons_of_mem y hz)
        simpa using this
      · simp [List.filter_cons, hxk]

theorem foldl_insertStep_filter (k : String) :
    ∀ (l acc : List Node), List.Pairwise nodeLe acc →
      (l.foldl (fun a x => insertStep x a) acc).filter (fun s => s.cls = k)
        = acc.filter (fun s => s.cls = k) ++ l.filter (fun s => s.cls = k)
  | [], acc, _ => by simp
  | x :: rest, acc, h => by
    have hrec := foldl_insertStep_filter k rest (insertStep x acc) (insertStep_sorted x acc h)
    simp only [List.foldl] at hrec ⊢
    rw [hrec, filter_insertStep x k acc h]
    by_cases hxk : x.cls = k
    · simp [List.filter_cons, hxk]
    · simp [List.filter_cons, hxk]

/-- Stability of the canonical sort: within one class name, steps keep their
construction order. -/
theorem sortSteps_filter (l : List Node) (k : String) :
    (sortSteps l).filter (fun s => s.cls = k) = l.filter (fun s => s.cls = k) := by
  simpa using foldl_insertStep_filter k l [] List.Pairwise.nil

/-- The stored hash after `Pipeline._set_hash` equals the pure pipeline hash
recursion. -/
theorem pipelineSetHash_storedHash (digest : String → String)
    (x y t pr lb : Option Node) (h0 prev : String) :
    (pipelineSetHash digest ⟨x, y, t, pr, lb, h0⟩ prev).storedHash
      = pipelineHashSpec digest x y t pr lb prev := by
  cases t <;> simp [pipelineSetHash, pipelineHashSpec, getHash_setHash]

/-- A successful prefix of a transforming run threads into the rest of the
steps. -/
theorem tsTransform_append {α : Type} :
    ∀ (l1 l2 : List (TransStep α)) (d d' : α), tsTransform l1 d = .ok d' →
      tsTransform (l1 ++ l2) d = tsTransform l2 d'
  | [], l2, d, d', h => by
    simp [tsTransform] at h
    simp [h]
  | s :: rest, l2, d, d', h => by
    by_cases hv : s.isTransformerInst
    · simp only [tsTransform, hv, if_true] at h ⊢
      match hc : callTransform s d with
      | .ok dm =>
        rw [hc] at h
        simpa [List.cons_append] using tsTransform_append rest l2 dm d' h
      | .error e => rw [hc] at h; simp at h
    · simp [tsTransform, hv] at h

/-- A successful prefix of a training run threads into the rest of the
steps. -/
theorem tsTrain_append {α : Type} :
    ∀ (l1 l2 : List (TrainStep α)) (x y x' y' : α), tsTrain l1 x y = .ok (x', y') →
      tsTrain (l1 ++ l2) x y = tsTrain l2 x' y'
  | [], l2, x, y, x', y', h => by
    simp [tsTrain] at h
    simp [h.1, h.2]
  | s :: rest, l2, x, y, x', y', h => by
    by_cases hv : s.isTrainerInst
    · simp only [tsTrain, hv, if_true] at h ⊢
      match hc : callTrain s x y with
      | .ok (xm, ym) =>
        rw [hc] at h
        simpa [List.cons_append] using tsTrain_append rest l2 xm ym x' y' h
      | .error e => rw [hc] at h; simp at h
    · simp [tsTrain, hv] at h

/-- A successful prefix of a prediction run threads into the rest of the
steps. -/
theorem tsPredict_append {α : Type} :
    ∀ (l1 l2 : List (TrainStep α)) (x x' : α), tsPredict l1 x = .ok x' →
      tsPredict (l1 ++ l2) x = tsPredict l2 x'
  | [], l2, x, x', h => by
    simp [tsPredict] at h
    simp [h]
  | s :: rest, l2, x, x', h => by
    by_cases hv : s.isTrainerInst
    · simp only [tsPredict, hv, if_true] at h ⊢
      match hc : callPredict s x with
      | .ok xm =>
        rw [hc] at h
        simpa [List.cons_append] using tsPredict_append rest l2 xm x' h
      | .error e => rw [hc] at h; simp at h
    · simp [tsPredict, hv] at h

/-- The tail loop of the parallel transform evaluates each later step on the
current accumulator. -/
theorem ptsTransformRest_fold {α : Type} (cls : String) (cc : α → α → α) :
    ∀ (l : List (String × (α → α))) (d : α),
      ptsTransformRest cls (some cc) (mkTransformers l) d
        = .ok (l.foldl (fun acc p => cc acc (p.2 acc)) d)
  | [], d => by simp [mkTransformers, ptsTransformRest]
  | p :: rest, d => by
    simp only [mkTransformers, List.map, ptsTransformRest, TransStep.isTransformerInst,
      callTransform, applyConcat, if_true, List.foldl]
    exact ptsTransformRest_fold cls cc rest (cc d (p.2 d))

/-- The tail loop of the parallel predict evaluates each later step on the
current accumulator. -/
theorem ptsPredictRest_fold {α : Type} (cls : String) (cc : α → α → α)
    (ccl : Option (α → α → α)) (steps0 : List (TrainStep α)) :
    ∀ (l : List (String × (α → α))) (x : α),
      ptsPredictRest ⟨cls, some cc, ccl, steps0⟩ (mkPredictors l) x
        = .ok (l.foldl (fun acc p => cc acc (p.2 acc)) x)
  | [], x => by simp [mkPredictors, ptsPredictRest]
  | p :: rest, x => by
    simp only [mkPredictors, List.map, ptsPredictRest, TrainStep.isTrainerInst,
      callPredict, ptConcat, if_true, List.foldl]
    exact ptsPredictRest_fold cls cc ccl steps0 rest (cc x (p.2 x))

/-- The tail loop of the parallel train evaluates each later step on the
current accumulator pair and folds with `concat` and `concat_labels`. -/
theorem ptsTrainRest_fold {α : Type} (cls : String) (cc ccl : α → α → α)
    (steps0 : List (TrainStep α)) :
    ∀ (l : List (String × (α → α → α × α))) (x y : α),
      ptsTrainRest ⟨cls, some cc, some ccl, steps0⟩ (mkTrainers l) x y
        = .ok (l.foldl
            (fun acc p => (cc acc.1 (p.2 acc.1 acc.2).1, ccl acc.2 (p.2 acc.1 acc.2).2))
            (x, y))
  | [], x, y => by simp [mkTrainers, ptsTrainRest]
  | p :: rest, x, y => by
    simp only [mkTrainers, List.map, ptsTrainRest, TrainStep.isTrainerInst,
      callTrain, ptConcat, ptConcatLabels, if_true, List.foldl]
    exact ptsTrainRest_fold cls cc ccl steps0 rest (cc x (p.2 x y).1) (ccl y (p.2 x y).2)

/-- Sum of a list after dividing every element by the same value. -/
theorem sum_map_div (s : ℚ) : ∀ w : List ℚ, (w.map (fun v => v / s)).sum = w.sum / s
  | [] => by simp
  | a :: rest => by
    simp [List.map, List.sum_cons, sum_map_div s rest, add_div]

/-- C2: for every parallel composite and previous hash, zero steps leave the
previous hash unchanged, one step makes the composite hash the hash of that
step against the previous hash, and two or more steps hash each step
independently against the same previous hash and digest the previous hash
concatenated with the step hashes in the canonical (stored) step order. -/
theorem parallel_hash_rule (digest : String → String) (c h0 prev : String) :
    ((setHash digest (Node.parallel c h0 []) prev).getHash = prev)
  ∧ (∀ s : Node,
      (setHash digest (Node.parallel c h0 [s]) prev).getHash = hashSpec digest s prev)
  ∧ (∀ (s t : Node) (rest : List Node),
      (setHash digest (Node.parallel c h0 (s :: t :: rest)) prev).getHash
        = digest (prev ++ hashSpecList digest (s :: t :: rest) prev))
  ∧ (∀ steps : List Node,
      (setHash digest (mkParallel digest c steps) prev).getHash
        = hashSpec digest (Node.parallel c "" (sortSteps steps)) prev) := by
  refine ⟨?_, ?_, ?_, ?_⟩
  · simp [setHash, Node.getHash]
  · intro s
    simp [setHash, Node.getHash]
    exact getHash_setHash digest s prev
  · intro s t rest
    simp [setHash, Node.getHash]
    rw [joinHashes_setHashAll]
  · intro steps
    rw [mkParallel, getHash_setHash]
    exact hashSpec_setHash digest (Node.parallel c "" (sortSteps steps)) "" prev

/-- C3: for every sequential composite and previous hash, the hash is
threaded through the steps in list order and the composite hash is the final
running hash; with zero steps the previous hash is unchanged, and a
zero-step composite constructed against the empty context has the empty
string as its hash. -/
theorem sequential_hash_rule (digest : String → String) (c h0 prev : String) :
    (∀ steps : List Node,
      (setHash digest (Node.sequential c h0 steps) prev).getHash
        = hashSpecThread digest steps prev)
  ∧ ((setHash digest (Node.sequential c h0 []) prev).getHash = prev)
  ∧ ((mkSequential digest c []).getHash = "") := by
  refine ⟨?_, ?_, ?_⟩
  · intro steps
    simp [setHash, Node.getHash]
    exact threadHash_snd digest steps prev
  · simp [setHash, threadHash, Node.getHash]
  · simp [mkSequential, setHash, threadHash, Node.getHash]

/-- C10: every node computes its identity hash during construction against
the empty previous-hash context, so the stored hash read by get_hash right
after construction equals the pure hash computation with the empty
context. -/
theorem hash_defined_at_construction (digest : String → String) (c r : String)
    (steps : List Node) (x y t pr lb : Option Node) :
    ((mkBlock digest c r).getHash = hashSpec digest (Node.block c r "") "")
  ∧ ((mkParallel digest c steps).getHash
      = hashSpec digest (Node.parallel c "" (sortSteps steps)) "")
  ∧ ((mkSequential digest c steps).getHash
      = hashSpec digest (Node.sequential c "" steps) "")
  ∧ ((mkPipeline digest x y t pr lb).storedHash = pipelineHashSpec digest x y t pr lb "") := by
  refine ⟨?_, ?_, ?_, ?_⟩
  · exact getHash_setHash digest (Node.block c r "") ""
  · exact getHash_setHash digest (Node.parallel c "" (sortSteps steps)) ""
  · exact getHash_setHash digest (Node.sequential c "" steps) ""
  · exact pipelineSetHash_storedHash digest x y t pr lb "" ""

/-- C4 counterexample: a pipeline whose only slot is an x-system with a
nonempty stored hash is hashed against the empty context; the claim says the
empty running hash is replaced outright by the slot-hash concatenation at
that stage, but the code folds it through the digest, so the pipeline hash
differs from the concatenation. -/
theorem pipeline_xy_fold_not_substituted_cex :
    (mkPipeline digestM (some (mkBlock digestM "Transformer" "T()"))
        none none none none).storedHash
      ≠ (mkBlock digestM "Transformer" "T()").getHash := by decide

/-- C4 amended: the stage combining x_sys and y_sys always folds the
concatenated slot hashes into the running hash through the digest, even when
the running hash is empty; only the stage combining pred_sys and label_sys
replaces an empty running hash outright by the concatenation (folding
through the digest otherwise); the train_sys stage recomputes the hash of
the training system against the running hash and folds it in through the
digest exactly when the recomputed hash is nonempty. -/
theorem pipeline_stage_hash_rules (digest : String → String) (x y pr lb : Option Node)
    (tn : Node) (prev : String) :
    (optHash x ++ optHash y ≠ "" →
      (pipelineSetHash digest ⟨x, y, none, none, none, ""⟩ prev).storedHash
        = digest (prev ++ (optHash x ++ optHash y)))
  ∧ (optHash pr ++ optHash lb ≠ "" →
      (pipelineSetHash digest ⟨none, none, none, pr, lb, ""⟩ "").storedHash
        = optHash pr ++ optHash lb)
  ∧ (optHash pr ++ optHash lb ≠ "" → prev ≠ "" →
      (pipelineSetHash digest ⟨none, none, none, pr, lb, ""⟩ prev).storedHash
        = digest (prev ++ (optHash pr ++ optHash lb)))
  ∧ ((pipelineSetHash digest ⟨none, none, some tn, none, none, ""⟩ prev).storedHash
      = if hashSpec digest tn prev ≠ "" then digest (prev ++ hashSpec digest tn prev)
        else prev) := by
  refine ⟨?_, ?_, ?_, ?_⟩
  · intro hxy
    rw [pipelineSetHash_storedHash]
    simp only [pipelineHashSpec, optHash] at hxy ⊢
    simp [hxy]
  · intro hpl
    rw [pipelineSetHash_storedHash]
    simp only [pipelineHashSpec, optHash] at hpl ⊢
    simp [hpl]
  · intro hpl hprev
    rw [pipelineSetHash_storedHash]
    simp only [pipelineHashSpec, optHash] at hpl ⊢
    simp [hpl, hprev]
  · rw [pipelineSetHash_storedHash]
    simp [pipelineHashSpec, optHash]

/-- C4 witness: the amended stage rules evaluated at concrete pipelines. -/
theorem pipeline_stage_hash_rules_witness :
    (pipelineSetHash digestM ⟨some (Node.block "TX" "tx" "hx"), none, none, none, none, ""⟩
        "").storedHash = digestM ("" ++ ("hx" ++ ""))
  ∧ (pipelineSetHash digestM ⟨none, none, none, some (Node.block "TP" "tp" "hp"), none, ""⟩
        "").storedHash = "hp" ++ "" :=
  ⟨(pipeline_stage_hash_rules digestM (some (Node.block "TX" "tx" "hx")) none none none
      (Node.block "Z" "z" "") "").1 (by decide),
   (pipeline_stage_hash_rules digestM none none (some (Node.block "TP" "tp" "hp")) none
      (Node.block "Z" "z" "") "").2.1 (by decide)⟩

/-- C5 counterexample: a parallel system constructed with two steps and the
nonempty weights list of length one does not fail; weight setup silently
replaces the mismatched list with equal weights. -/
theorem weights_length_mismatch_no_error_cex :
    setupWeights 2 [3] = Except.ok [(1 : ℚ) / 2, (1 : ℚ) / 2] := by
  norm_num [setupWeights, List.replicate]

/-- C5 amended: a non-empty weights list whose length differs from the steps
list does not fail construction; it is ignored and replaced with equal
weights (raising ZeroDivisionError only when the steps list is empty); when
the lengths match and the sum is nonzero the supplied weights are normalized
to sum to 1; when no weights are supplied the mismatch branch likewise
installs equal weights, which sum to 1. -/
theorem weights_setup_rule (n : Nat) (w : List ℚ) :
    (w.length ≠ n → n ≠ 0 → setupWeights n w = .ok (List.replicate n (1 / (n : ℚ))))
  ∧ (w.length ≠ n → n = 0 → setupWeights n w = .error .zeroDivisionError)
  ∧ (w.length = n → w ≠ [] → w.sum ≠ 0 →
      setupWeights n w = .ok (w.map (fun v => v / w.sum))
        ∧ (w.map (fun v => v / w.sum)).sum = 1)
  ∧ (n ≠ 0 → (List.replicate n ((1 : ℚ) / n)).sum = 1) := by
  have hsum : ∀ m : Nat, m ≠ 0 → (List.replicate m ((1 : ℚ) / m)).sum = 1 := by
    intro m hm
    rw [List.sum_replicate, nsmul_eq_mul, mul_one_div,
      div_self (Nat.cast_ne_zero.mpr hm)]
  refine ⟨?_, ?_, ?_, hsum n⟩
  · intro hlen hn
    simp [setupWeights, hlen, hn]
  · intro hlen hn
    subst hn
    simp [setupWeights, hlen]
  · intro hlen hne hsum0
    constructor
    · simp [setupWeights, hlen, hne, hsum0]
    · rw [sum_map_div, div_self hsum0]

/-- C5 witness: the amended rule evaluated at the mismatched concrete
input. -/
theorem weights_setup_rule_witness :
    setupWeights 2 [3] = .ok (List.replicate 2 (1 / ((2 : Nat) : ℚ))) :=
  (weights_setup_rule 2 [3]).1 (by decide) (by decide)

/-- C9: weight setup raises ZeroDivisionError exactly when the supplied
weights list is nonempty and either matches the steps count with a zero sum,
or the steps list is empty; in every other case it completes with a
result (in particular the empty steps list with the empty weights list
succeeds). -/
theorem weights_zero_division_iff (n : Nat) (w : List ℚ) :
    (setupWeights n w = Except.error PyErr.zeroDivisionError ↔
      ((w.length = n ∧ w ≠ [] ∧ w.sum = 0) ∨ (n = 0 ∧ w ≠ [])))
  ∧ (¬ ((w.length = n ∧ w ≠ [] ∧ w.sum = 0) ∨ (n = 0 ∧ w ≠ [])) →
      ∃ ws, setupWeights n w = Except.ok ws) := by
  by_cases hlen : w.length = n
  · by_cases hne : w = []
    · subst hne
      have hn0 : n = 0 := by simpa using hlen.symm
      subst hn0
      constructor
      · simp [setupWeights]
      · intro _
        exact ⟨[], by simp [setupWeights]⟩
    · by_cases hs : w.sum = 0
      · constructor
        · simp [setupWeights, hlen, hne, hs]
        · intro hcon
          exact absurd (Or.inl ⟨hlen, hne, hs⟩) hcon
      · constructor
        · constructor
          · intro h
            simp [setupWeights, hlen, hne, hs] at h
          · intro hcon
            rcases hcon with ⟨_, _, hs'⟩ | ⟨hn0, _⟩
            · exact absurd hs' hs
            · subst hn0
              exact absurd (List.length_eq_zero.mp hlen) hne
        · intro _
          exact ⟨w.map (fun v => v / w.sum), by simp [setupWeights, hlen, hne, hs]⟩
  · have hne : w ≠ [] ∨ n ≠ 0 := by
      by_cases hw : w = []
      · subst hw
        right
        intro hn0
        exact hlen (by simp [hn0])
      · left; exact hw
    by_cases hn0 : n = 0
    · subst hn0
      have hwne : w ≠ [] := by
        intro hw
        exact hlen (by simp [hw])
      constructor
      · constructor
        · intro _
          exact Or.inr ⟨rfl, hwne⟩
        · intro _
          simp [setupWeights, hlen]
      · intro hcon
        exact absurd (Or.inr ⟨rfl, hwne⟩) hcon
    · constructor
      · constructor
        · intro h
          simp [setupWeights, hlen, hn0] at h
        · intro hcon
          rcases hcon with ⟨hl, _, _⟩ | ⟨hn, _⟩
          · exact absurd hl hlen
          · exact absurd hn hn0
      · intro _
        exact ⟨List.replicate n (1 / (n : ℚ)), by simp [setupWeights, hlen, hn0]⟩

/-- C9 witness: the characterization applied at the empty steps list with a
nonempty weights list. -/
theorem weights_zero_division_iff_witness :
    setupWeights 0 [1] = Except.error PyErr.zeroDivisionError :=
  (weights_zero_division_iff 0 [1]).1.mpr (Or.inr ⟨rfl, by decide⟩)

/-- The canonical sort of a two-element list compares the two class names. -/
theorem sortSteps_pair (a b : Node) :
    sortSteps [a, b] = if strLe a.cls b.cls = true then [a, b] else [b, a] := by
  simp [sortSteps, List.foldl, insertStep]

/-- C6: every parallel system reorders its steps at construction by class
name (the sorted list is ordered under the class-name comparison and is a
permutation of the construction list, and within one class name the
construction order is kept); consequently, for two steps with identical
state (equal as values) or with distinct class names, the composite hash in
any previous-hash context is the same whichever order the two steps were
given in. -/
theorem parallel_canonical_sort (digest : String → String) (c k prev : String)
    (steps : List Node) (s1 s2 : Node) :
    List.Pairwise nodeLe (sortSteps steps)
  ∧ List.Perm (sortSteps steps) steps
  ∧ (sortSteps steps).filter (fun s => s.cls = k) = steps.filter (fun s => s.cls = k)
  ∧ ((s1 = s2 ∨ s1.cls ≠ s2.cls) →
      (setHash digest (mkParallel digest c [s1, s2]) prev).getHash
        = (setHash digest (mkParallel digest c [s2, s1]) prev).getHash) := by
  refine ⟨sortSteps_sorted steps, sortSteps_perm steps, sortSteps_filter steps k, ?_⟩
  rintro (heq | hne)
  · subst heq
    rfl
  · have hsort : sortSteps [s1, s2] = sortSteps [s2, s1] := by
      rw [sortSteps_pair, sortSteps_pair]
      by_cases h12 : strLe s1.cls s2.cls = true
      · have h21 : ¬ strLe s2.cls s1.cls = true := by
          intro h21
          exact hne (strLe_antisymm h12 h21)
        simp [h12, h21]
      · have h21 : strLe s2.cls s1.cls = true := by
          rcases strLe_total s1.cls s2.cls with h | h
          · exact absurd h h12
          · exact h
        simp [h12, h21]
    rw [mkParallel, mkParallel, hsort]

/-- C6 witness: the canonical order applied to concrete two-block systems
with distinct class names. -/
theorem parallel_canonical_sort_witness :
    (setHash digestM
        (mkParallel digestM "P" [Node.block "A" "a" "", Node.block "B" "b" ""]) "").getHash
      = (setHash digestM
        (mkParallel digestM "P" [Node.block "B" "b" "", Node.block "A" "a" ""]) "").getHash :=
  (parallel_canonical_sort digestM "P" "A" "" []
    (Node.block "A" "a" "") (Node.block "B" "b" "")).2.2.2 (Or.inr (by decide))

/-- C1 counterexample: a parallel transforming system with two increment
steps and addition as concat, applied to 0.  Running every later step on the
original input, as the claim states, yields 2; the code yields 3 because the
second step receives the accumulator. -/
theorem parallel_transform_accumulator_cex :
    ptsTransform "P" (some (fun a b : Int => a + b))
        [TransStep.transformer "A" (some (fun v : Int => v + 1)),
         TransStep.transformer "B" (some (fun v : Int => v + 1))] 0
      = Except.ok 3
  ∧ specParallelFold (fun a b : Int => a + b) (fun v : Int => v + 1)
        [fun v : Int => v + 1] 0 = 2
  ∧ (Except.ok (3 : Int) : Except PyErr Int) ≠ Except.ok 2 := by
  refine ⟨?_, ?_, ?_⟩
  · rfl
  · rfl
  · intro h
    simp at h

/-- C1 amended: in every parallel system the output of the step at index 0
seeds the accumulator directly, and every later step is executed against the
current accumulator (not the original input), its output folded in via
concat (labels via concat_labels); this holds for transform, predict and
train. -/
theorem parallel_fold_uses_accumulator (α : Type) (cls c0 : String) (cc ccl : α → α → α)
    (f0 : α → α) (t0 : α → α → α × α) (l : List (String × (α → α)))
    (tl : List (String × (α → α → α × α))) (x0 y0 : α) :
    (ptsTransform cls (some cc) (TransStep.transformer c0 (some f0) :: mkTransformers l) x0
      = .ok (l.foldl (fun acc p => cc acc (p.2 acc)) (f0 x0)))
  ∧ (ptsPredict ⟨cls, some cc, some ccl,
        TrainStep.trainer c0 none (some f0) :: mkPredictors l⟩ x0
      = .ok (l.foldl (fun acc p => cc acc (p.2 acc)) (f0 x0)))
  ∧ (ptsTrain ⟨cls, some cc, some ccl,
        TrainStep.trainer c0 (some t0) none :: mkTrainers tl⟩ x0 y0
      = .ok (tl.foldl
          (fun acc p => (cc acc.1 (p.2 acc.1 acc.2).1, ccl acc.2 (p.2 acc.1 acc.2).2))
          (t0 x0 y0))) := by
  refine ⟨?_, ?_, ?_⟩
  · simp only [ptsTransform, TransStep.isTransformerInst, callTransform, if_true]
    exact ptsTransformRest_fold cls cc l (f0 x0)
  · simp only [ptsPredict, TrainStep.isTrainerInst, callPredict, if_true]
    exact ptsPredictRest_fold cls cc (some ccl) _ l (f0 x0)
  · simp only [ptsTrain, TrainStep.isTrainerInst, callTrain, if_true]
    exact ptsTrainRest_fold cls cc ccl _ tl (t0 x0 y0).1 (t0 x0 y0).2

/-- A successful prefix of the parallel transform tail loop threads its
accumulator into the remaining steps. -/
theorem ptsTransformRest_append {α : Type} (cls : String) (cc : Option (α → α → α)) :
    ∀ (l1 l2 : List (TransStep α)) (d d' : α),
      ptsTransformRest cls cc l1 d = .ok d' →
      ptsTransformRest cls cc (l1 ++ l2) d = ptsTransformRest cls cc l2 d'
  | [], l2, d, d', h => by
    simp [ptsTransformRest] at h
    simp [h]
  | s :: rest, l2, d, d', h => by
    by_cases hv : s.isTransformerInst
    · simp only [ptsTransformRest, hv, if_true] at h ⊢
      match hc : callTransform s d with
      | .ok t =>
        rw [hc] at h
        dsimp only at h ⊢
        match ha : applyConcat cls cc d t with
        | .ok dm =>
          rw [ha] at h
          simpa [List.cons_append] using ptsTransformRest_append cls cc rest l2 dm d' h
        | .error e => rw [ha] at h; simp at h
      | .error e => rw [hc] at h; simp at h
    · simp [ptsTransformRest, hv] at h

/-- The concat hook reads only the class name and the concat override, never
the steps list. -/
theorem ptConcat_hooks {α : Type} (S T : PTrainSys α) (hcls : T.cls = S.cls)
    (hcc : T.cc = S.cc) (a b : α) : ptConcat T a b = ptConcat S a b := by
  simp only [ptConcat, hcls, hcc]

/-- The concat_labels hook reads only the class name and the two overrides,
never the steps list. -/
theorem ptConcatLabels_hooks {α : Type} (S T : PTrainSys α) (hcls : T.cls = S.cls)
    (hcc : T.cc = S.cc) (hccl : T.ccl = S.ccl) (a b : α) :
    ptConcatLabels T a b = ptConcatLabels S a b := by
  simp only [ptConcatLabels, hccl]
  cases S.ccl with
  | none => exact ptConcat_hooks S T hcls hcc a b
  | some f => rfl

/-- A successful prefix of the parallel train tail loop threads its
accumulator pair into the remaining steps, for any system sharing the same
hooks (the loop never reads the steps field of the system). -/
theorem ptsTrainRest_append {α : Type} (S T : PTrainSys α) (hcls : T.cls = S.cls)
    (hcc : T.cc = S.cc) (hccl : T.ccl = S.ccl) :
    ∀ (l1 l2 : List (TrainStep α)) (x y x' y' : α),
      ptsTrainRest S l1 x y = .ok (x', y') →
      ptsTrainRest T (l1 ++ l2) x y = ptsTrainRest T l2 x' y'
  | [], l2, x, y, x', y', h => by
    simp [ptsTrainRest] at h
    simp [h.1, h.2]
  | s :: rest, l2, x, y, x', y', h => by
    by_cases hv : s.isTrainerInst
    · simp only [ptsTrainRest, hv, if_true] at h ⊢
      match hc : callTrain s x y with
      | .ok (nx, ny) =>
        rw [hc] at h
        dsimp only at h ⊢
        rw [ptConcat_hooks S T hcls hcc x nx]
        match ha : ptConcat S x nx with
        | .ok xm =>
          rw [ha] at h
          dsimp only at h ⊢
          rw [ptConcatLabels_hooks S T hcls hcc hccl y ny]
          match hb : ptConcatLabels S y ny with
          | .ok ym =>
            rw [hb] at h
            simpa [List.cons_append] using
              ptsTrainRest_append S T hcls hcc hccl rest l2 xm ym x' y' h
          | .error e => rw [hb] at h; simp at h
        | .error e => rw [ha] at h; simp at h
      | .error e => rw [hc] at h; simp at h
    · simp [ptsTrainRest, hv] at h

/-- A successful prefix of the parallel predict tail loop threads its
accumulator into the remaining steps, for any system sharing the same
hooks. -/
theorem ptsPredictRest_append {α : Type} (S T : PTrainSys α) (hcls : T.cls = S.cls)
    (hcc : T.cc = S.cc) :
    ∀ (l1 l2 : List (TrainStep α)) (x x' : α),
      ptsPredictRest S l1 x = .ok x' →
      ptsPredictRest T (l1 ++ l2) x = ptsPredictRest T l2 x'
  | [], l2, x, x', h => by
    simp [ptsPredictRest] at h
    simp [h]
  | s :: rest, l2, x, x', h => by
    by_cases hv : s.isTrainerInst
    · simp only [ptsPredictRest, hv, if_true] at h ⊢
      match hc : callPredict s x with
      | .ok nx =>
        rw [hc] at h
        dsimp only at h ⊢
        rw [ptConcat_hooks S T hcls hcc x nx]
        match ha : ptConcat S x nx with
        | .ok xm =>
          rw [ha] at h
          simpa [List.cons_append] using
            ptsPredictRest_append S T hcls hcc rest l2 xm x' h
        | .error e => rw [ha] at h; simp at h
      | .error e => rw [hc] at h; simp at h
    · simp [ptsPredictRest, hv] at h

/-- C7: when the steps list of a sequential or parallel system is mutated so
that a step without the required capability appears, either at index 0 or
after a successfully executing prefix, calling transform, train or predict
raises a dispatch TypeError naming that step, at the first violating step
encountered, regardless of what follows it. -/
theorem dispatch_type_error_first (α : Type) (cls : String)
    (cc ccl : Option (α → α → α)) (good : List (TransStep α))
    (bad : TransStep α) (rest : List (TransStep α)) (d d' : α)
    (tgood : List (TrainStep α)) (tbad : TrainStep α) (trest : List (TrainStep α))
    (x y x' y' : α) :
    (tsTransform good d = .ok d' → bad.isTransformerInst = false →
      tsTransform (good ++ bad :: rest) d
        = .error (.typeError (bad.reprStr ++ " is not an instance of a transformer")))
  ∧ (tsTrain tgood x y = .ok (x', y') → tbad.isTrainerInst = false →
      tsTrain (tgood ++ tbad :: trest) x y
        = .error (.typeError (tbad.reprStr ++ " is not a subclass of Trainer")))
  ∧ (tsPredict tgood x = .ok x' → tbad.isTrainerInst = false →
      tsPredict (tgood ++ tbad :: trest) x
        = .error (.typeError (tbad.reprStr ++ " is not a subclass of Trainer")))
  ∧ (bad.isTransformerInst = false →
      ptsTransform cls cc (bad :: rest) d
        = .error (.typeError (bad.reprStr ++ " is not a subclass of Transformer")))
  ∧ (good ≠ [] → ptsTransform cls cc good d = .ok d' → bad.isTransformerInst = false →
      ptsTransform cls cc (good ++ bad :: rest) d
        = .error (.typeError (bad.reprStr ++ " is not a subclass of Transformer")))
  ∧ (tbad.isTrainerInst = false →
      ptsTrain ⟨cls, cc, ccl, tbad :: trest⟩ x y
        = .error (.typeError (tbad.reprStr
            ++ " is not a subclass of Trainer, TrainingSystem or ParallelTrainingSystem")))
  ∧ (tgood ≠ [] → ptsTrain ⟨cls, cc, ccl, tgood⟩ x y = .ok (x', y') →
      tbad.isTrainerInst = false →
      ptsTrain ⟨cls, cc, ccl, tgood ++ tbad :: trest⟩ x y
        = .error (.typeError (tbad.reprStr
            ++ " is not a subclass of Trainer, TrainingSystem or ParallelTrainingSystem")))
  ∧ (tbad.isTrainerInst = false →
      ptsPredict ⟨cls, cc, ccl, tbad :: trest⟩ x
        = .error (.typeError (tbad.reprStr ++ " is not a subclass of Trainer or TrainingSystem")))
  ∧ (tgood ≠ [] → ptsPredict ⟨cls, cc, ccl, tgood⟩ x = .ok x' →
      tbad.isTrainerInst = false →
      ptsPredict ⟨cls, cc, ccl, tgood ++ tbad :: trest⟩ x
        = .error (.typeError (tbad.reprStr
            ++ " is not a subclass of Trainer or TrainingSystem"))) := by
  refine ⟨?_, ?_, ?_, ?_, ?_, ?_, ?_, ?_, ?_⟩
  · intro hok hbad
    rw [tsTransform_append good (bad :: rest) d d' hok]
    simp [tsTransform, hbad]
  · intro hok hbad
    rw [tsTrain_append tgood (tbad :: trest) x y x' y' hok]
    simp [tsTrain, hbad]
  · intro hok hbad
    rw [tsPredict_append tgood (tbad :: trest) x x' hok]
    simp [tsPredict, hbad]
  · intro hbad
    simp [ptsTransform, hbad]
  · intro hne hok hbad
    match good, hne with
    | g0 :: gs, _ =>
      by_cases hv : g0.isTransformerInst
      · simp only [ptsTransform, hv, if_true, List.cons_append] at hok ⊢
        match hc : callTransform g0 d with
        | .ok d0 =>
          rw [hc] at hok
          dsimp only at hok ⊢
          rw [ptsTransformRest_append cls cc gs (bad :: rest) d0 d' hok]
          simp [ptsTransformRest, hbad]
        | .error e => rw [hc] at hok; simp at hok
      · simp [ptsTransform, hv] at hok
  · intro hbad
    simp [ptsTrain, hbad]
  · intro hne hok hbad
    match tgood, hne with
    | g0 :: gs, _ =>
      by_cases hv : g0.isTrainerInst
      · simp only [ptsTrain, hv, if_true, List.cons_append] at hok ⊢
        match hc : callTrain g0 x y with
        | .ok (x0, y0) =>
          rw [hc] at hok
          dsimp only at hok ⊢
          rw [ptsTrainRest_append ⟨cls, cc, ccl, g0 :: gs⟩
            ⟨cls, cc, ccl, g0 :: (gs ++ tbad :: trest)⟩ rfl rfl rfl
            gs (tbad :: trest) x0 y0 x' y' hok]
          simp [ptsTrainRest, hbad]
        | .error e => rw [hc] at hok; simp at hok
      · simp [ptsTrain, hv] at hok
  · intro hbad
    simp [ptsPredict, hbad]
  · intro hne hok hbad
    match tgood, hne with
    | g0 :: gs, _ =>
      by_cases hv : g0.isTrainerInst
      · simp only [ptsPredict, hv, if_true, List.cons_append] at hok ⊢
        match hc : callPredict g0 x with
        | .ok x0 =>
          rw [hc] at hok
          dsimp only at hok ⊢
          rw [ptsPredictRest_append ⟨cls, cc, ccl, g0 :: gs⟩
            ⟨cls, cc, ccl, g0 :: (gs ++ tbad :: trest)⟩ rfl rfl
            gs (tbad :: trest) x0 x' hok]
          simp [ptsPredictRest, hbad]
        | .error e => rw [hc] at hok; simp at hok
      · simp [ptsPredict, hv] at hok

/-- C7 witness: the dispatch errors evaluated on concrete mutated sequential
and parallel systems. -/
theorem dispatch_type_error_first_witness :
    tsTransform ([TransStep.transformer "TA" (some (fun v : Int => v))]
        ++ [TransStep.other "obj"]) 0
      = Except.error (PyErr.typeError ((TransStep.other "obj" : TransStep Int).reprStr
          ++ " is not an instance of a transformer"))
  ∧ tsTrain (([] : List (TrainStep Int)) ++ [TrainStep.other "tobj"]) 0 0
      = Except.error (PyErr.typeError ((TrainStep.other "tobj" : TrainStep Int).reprStr
          ++ " is not a subclass of Trainer"))
  ∧ ptsTransform "P" none ([TransStep.transformer "TA" (some (fun v : Int => v))]
        ++ [TransStep.other "obj"]) 0
      = Except.error (PyErr.typeError ((TransStep.other "obj" : TransStep Int).reprStr
          ++ " is not a subclass of Transformer"))
  ∧ ptsTrain (⟨"P", none, none,
        [TrainStep.trainer "T" (some fun x y => (x, y)) none] ++ [TrainStep.other "tobj"]⟩
        : PTrainSys Int) 0 0
      = Except.error (PyErr.typeError ((TrainStep.other "tobj" : TrainStep Int).reprStr
          ++ " is not a subclass of Trainer, TrainingSystem or ParallelTrainingSystem"))
  ∧ ptsPredict (⟨"P", none, none, TrainStep.other "tobj" :: []⟩ : PTrainSys Int) 0
      = Except.error (PyErr.typeError ((TrainStep.other "tobj" : TrainStep Int).reprStr
          ++ " is not a subclass of Trainer or TrainingSystem")) :=
  ⟨(dispatch_type_error_first Int "P" none none
      [TransStep.transformer "TA" (some (fun v : Int => v))]
      (TransStep.other "obj") [] 0 0 [] (TrainStep.other "tobj") [] 0 0 0 0).1 rfl rfl,
   (dispatch_type_error_first Int "P" none none [] (TransStep.other "obj") [] 0 0 []
      (TrainStep.other "tobj") [] 0 0 0 0).2.1 rfl rfl,
   (dispatch_type_error_first Int "P" none none
      [TransStep.transformer "TA" (some (fun v : Int => v))]
      (TransStep.other "obj") [] 0 0 [] (TrainStep.other "tobj") [] 0 0 0 0).2.2.2.2.1
      (List.cons_ne_nil _ _) rfl rfl,
   (dispatch_type_error_first Int "P" none none [] (TransStep.other "obj") [] 0 0
      [TrainStep.trainer "T" (some fun x y => (x, y)) none]
      (TrainStep.other "tobj") [] 0 0 0 0).2.2.2.2.2.2.1
      (List.cons_ne_nil _ _) rfl rfl,
   (dispatch_type_error_first Int "P" none none [] (TransStep.other "obj") [] 0 0 []
      (TrainStep.other "tobj") [] 0 0 0 0).2.2.2.2.2.2.2.1 rfl⟩

/-- C8: operations never overridden on the base type raise a
NotImplementedError that propagates to the caller: train on the base
Trainer, concat on a parallel training system without a concat override
(also reached through the concat_labels default), and a full parallel train
run that hits the missing concat. -/
theorem abstract_method_errors :
    callTrain (TrainStep.trainer "Trainer" none none) ([1, 2, 3] : List Int) [1, 2, 3]
      = Except.error (.notImplementedError "Trainer does not implement train method.")
  ∧ ptConcat (⟨"ParallelTrainingSystem", none, none, []⟩ : PTrainSys (List Int))
        [1, 2, 3] [4, 5, 6]
      = Except.error
          (.notImplementedError "ParallelTrainingSystem does not implement concat method.")
  ∧ ptConcatLabels (⟨"ParallelTrainingSystem", none, none, []⟩ : PTrainSys (List Int))
        [1, 2, 3] [4, 5, 6]
      = Except.error
          (.notImplementedError "ParallelTrainingSystem does not implement concat method.")
  ∧ ptsTrain (⟨"CustomPTS", none, none,
        [TrainStep.trainer "T" (some fun x y => (x, y)) none,
         TrainStep.trainer "T" (some fun x y => (x, y)) none]⟩ : PTrainSys (List Int))
        [1, 2, 3] [1, 2, 3]
      = Except.error (.notImplementedError "CustomPTS does not implement concat method.") :=
  ⟨rfl, rfl, rfl, rfl⟩

end Agogos
